import Mathlib

/-!
Verification of the pitch-glide approximation concept code
(`concept/v1/pitch-shift/TestPitchShift1.cpp`).

The C code works on `float` buffers; we model float arithmetic by exact
arithmetic in a field `K` (instantiated with `ℝ` in all theorems) and the
`sin` library routine by a function parameter `sn : K → K` (instantiated
with `Real.sin`).  Buffers (`float *out`) are modelled as total functions
`ℤ → K`; a write to `out[t]` becomes a functional update.  The narrowing
`float → int16_t` store in `convertTo16` truncates toward zero when the
truncated value is representable in `int16_t`; converting an
unrepresentable value is undefined behavior in C and is modelled as
`none`, so the `int16_t` buffer holds `Option ℤ` cells whose `some` values
stay in the int16 range.
-/

/-- Source macro `#define SAMPLE_RATE (44100)`. -/
def SAMPLE_RATE : ℤ := 44100

/-- Source macro `#define LENGTH (SAMPLE_RATE*5)`. -/
def LENGTH : ℤ := SAMPLE_RATE * 5

/-- The start phase `w0 = a*t0*t0 + b*t0` computed by `pitchSeg`. -/
def segW0 {K : Type} [Field K] (t0 : ℤ) (a b : K) : K :=
  a * (t0 : K) * (t0 : K) + b * (t0 : K)

/-- Source line `float freqR = (w1-w0) / (float)(t1-t0);` from `pitchSeg`, where
`w1 = a*t1*t1 + b*t1` and `w0 = a*t0*t0 + b*t0`. -/
def segFreqR {K : Type} [Field K] (t0 t1 : ℤ) (a b : K) : K :=
  (segW0 t1 a b - segW0 t0 a b) / ((t1 : K) - (t0 : K))

/-- Source line `float freqL = 2*a*t0 + b;` from `pitchSeg`. -/
def segFreqL {K : Type} [Field K] (t0 : ℤ) (a b : K) : K :=
  2 * a * (t0 : K) + b

/-- The loop-body expression of `pitchSeg`:
`out[t] = (t1-t)/(float)(t1-t0) * sin(w0 + freqL*(t-t0)) +
          (t-t0)/(float)(t1-t0) * sin(w0 + freqR*(t-t0));`. -/
def segInterp {K : Type} [Field K] (sn : K → K) (t0 t1 : ℤ) (a b : K) (t : ℤ) : K :=
  ((t1 : K) - (t : K)) / ((t1 : K) - (t0 : K)) *
    sn (segW0 t0 a b + segFreqL t0 a b * ((t : K) - (t0 : K))) +
  ((t : K) - (t0 : K)) / ((t1 : K) - (t0 : K)) *
    sn (segW0 t0 a b + segFreqR t0 t1 a b * ((t : K) - (t0 : K)))

/-- Model of `static void pitchSeg(float *out, int t0, int t1, float a, float b)`:
writes the crossfaded interpolant into `out[t]` for every `t` with
`t0 <= t < t1` and leaves every other index unchanged. -/
def pitchSeg {K : Type} [Field K] (sn : K → K) (out : ℤ → K) (t0 t1 : ℤ)
    (a b : K) : ℤ → K :=
  fun t => if t0 ≤ t ∧ t < t1 then segInterp sn t0 t1 a b t else out t

/-- The loop `for (int i=0; i<LENGTH; i+=blockSize)` of `approxPitchShift`,
starting at loop counter `i`.  The guard `0 < blockSize` reflects that the
C loop only terminates for a positive step; all claims assume
`blockSize >= 1`. -/
def approxLoop {K : Type} [Field K] (sn : K → K) (blockSize : ℤ) (a b : K)
    (i : ℤ) (out : ℤ → K) : ℤ → K :=
  if _h : 0 < blockSize ∧ i < LENGTH then
    approxLoop sn blockSize a b (i + blockSize)
      (pitchSeg sn out i (min LENGTH (i + blockSize)) a b)
  else out
termination_by (LENGTH - i).toNat
decreasing_by omega

/-- Model of `static void approxPitchShift(float *out, int blockSize, float a, float b)`:
`pitchSeg(out, i, std::min(LENGTH, i+blockSize), a, b)` over each group of
`blockSize` samples. -/
def approxPitchShift {K : Type} [Field K] (sn : K → K) (out : ℤ → K)
    (blockSize : ℤ) (a b : K) : ℤ → K :=
  approxLoop sn blockSize a b 0 out

/-- The exact analytic chirp `y = sin(a*t^2 + b*t)` that the code's header
comment says `pitchSeg` approximates. -/
def chirp {K : Type} [Field K] (sn : K → K) (a b : K) (t : ℤ) : K :=
  sn (a * (t : K) ^ 2 + b * (t : K))

/-- Maximum absolute deviation of the `approxPitchShift` output from the
exact chirp over all sample indices `0 <= t < LENGTH`. -/
def maxDev {K : Type} [LinearOrderedField K] (sn : K → K) (out0 : ℤ → K)
    (blockSize : ℤ) (a b : K) : K :=
  (Finset.range LENGTH.toNat).sup'
    (Finset.nonempty_range_iff.mpr (by norm_num [LENGTH, SAMPLE_RATE]))
    (fun t => |approxPitchShift sn out0 blockSize a b (t : ℤ) - chirp sn a b (t : ℤ)|)

/-- C truncation toward zero performed by a float-to-integer conversion,
modelled on exact values. -/
def truncTowardZero {K : Type} [LinearOrderedField K] [FloorRing K] (x : K) : ℤ :=
  if 0 ≤ x then ⌊x⌋ else ⌈x⌉

/-- Smallest value of the C type `int16_t`. -/
def int16Min : ℤ := -(2 ^ 15)

/-- Largest value of the C type `int16_t` (also the scale factor
`(1<<15) - 1` used by `convertTo16`). -/
def int16Max : ℤ := 2 ^ 15 - 1

/-- Narrowing `float → int16_t` conversion: the value is truncated toward
zero and stored when the truncated value is representable in `int16_t`;
converting a value whose integral part is unrepresentable is undefined
behavior in C (C11 6.3.1.4), modelled as `none`. -/
def floatToInt16 {K : Type} [LinearOrderedField K] [FloorRing K] (x : K) : Option ℤ :=
  if int16Min ≤ truncTowardZero x ∧ truncTowardZero x ≤ int16Max then
    some (truncTowardZero x)
  else none

/-- Model of `static void convertTo16(float *inp, int16_t *outp)`:
`outp[i] = inp[i]*((1<<15) - 1);` for `0 <= i < LENGTH`, where the store
into the `int16_t` cell goes through the narrowing conversion
`floatToInt16` (UB on overflow modelled as `none`). -/
def convertTo16 {K : Type} [LinearOrderedField K] [FloorRing K]
    (inp : ℤ → K) (outp : ℤ → Option ℤ) : ℤ → Option ℤ :=
  fun i => if 0 ≤ i ∧ i < LENGTH then floatToInt16 (inp i * (2 ^ 15 - 1))
           else outp i

/-- The constant `LENGTH` as a numeral. -/
theorem LENGTH_eq : LENGTH = 220500 := by norm_num [LENGTH, SAMPLE_RATE]

/-- Unfolding characterization of the `approxPitchShift` loop: for a positive
`blockSize`, every index `t` in `[i, LENGTH)` ends up holding the interpolant
of the unique segment `[j, min LENGTH (j+blockSize))` containing it, where
`j = i + blockSize * ((t - i) / blockSize)`; every other index is untouched. -/
theorem approxLoop_spec {K : Type} [Field K] (sn : K → K) (bs : ℤ)
    (hbs : 0 < bs) (a b : K) :
    ∀ (n : ℕ) (i : ℤ) (out : ℤ → K) (t : ℤ), (LENGTH - i).toNat ≤ n →
      approxLoop sn bs a b i out t =
        if i ≤ t ∧ t < LENGTH then
          segInterp sn (i + bs * ((t - i) / bs))
            (min LENGTH (i + bs * ((t - i) / bs) + bs)) a b t
        else out t := by
  intro n
  induction n with
  | zero =>
    intro i out t hn
    have hiL : LENGTH ≤ i := by omega
    rw [approxLoop]
    rw [dif_neg (by omega)]
    rw [if_neg (by omega)]
  | succ n ih =>
    intro i out t hn
    by_cases hiL : i < LENGTH
    · rw [approxLoop, dif_pos ⟨hbs, hiL⟩]
      rw [ih (i + bs) _ t (by omega)]
      by_cases h1 : i + bs ≤ t ∧ t < LENGTH
      · rw [if_pos h1, if_pos ⟨by omega, h1.2⟩]
        have hdiv : (t - (i + bs)) / bs = (t - i) / bs - 1 := by
          have := Int.add_mul_ediv_right (t - i) (-1) (by omega : bs ≠ 0)
          have harg : t - (i + bs) = t - i + -1 * bs := by ring
          rw [harg, this]
          omega
        rw [hdiv]
        have harg2 : i + bs + bs * ((t - i) / bs - 1) = i + bs * ((t - i) / bs) := by
          ring
        rw [harg2]
      · rw [if_neg h1]
        unfold pitchSeg
        by_cases h2 : i ≤ t ∧ t < LENGTH
        · have htb : t < i + bs := by omega
          have hdiv0 : (t - i) / bs = 0 :=
            Int.ediv_eq_zero_of_lt (by omega) (by omega)
          rw [if_pos h2, hdiv0]
          have hmin : t < min LENGTH (i + bs) := lt_min h2.2 htb
          rw [if_pos ⟨h2.1, hmin⟩]
          norm_num
        · rw [if_neg h2]
          have : ¬ (i ≤ t ∧ t < min LENGTH (i + bs)) := by
            intro hc
            exact h2 ⟨hc.1, lt_of_lt_of_le hc.2 (min_le_left _ _)⟩
          rw [if_neg this]
    · rw [approxLoop, dif_neg (by omega), if_neg (by omega)]

/-- Value of `approxPitchShift` at every written index `0 <= t < LENGTH`:
the interpolant of the segment starting at `blockSize * (t / blockSize)`. -/
theorem approxPitchShift_spec {K : Type} [Field K] (sn : K → K) (out : ℤ → K)
    (bs : ℤ) (a b : K) (t : ℤ) (hbs : 0 < bs) (h0 : 0 ≤ t) (hL : t < LENGTH) :
    approxPitchShift sn out bs a b t =
      segInterp sn (bs * (t / bs)) (min LENGTH (bs * (t / bs) + bs)) a b t := by
  unfold approxPitchShift
  rw [approxLoop_spec sn bs hbs a b (LENGTH - 0).toNat 0 out t le_rfl]
  rw [if_pos ⟨h0, hL⟩]
  norm_num

/-- Indices outside `[0, LENGTH)` are never written by `approxPitchShift`. -/
theorem approxPitchShift_untouched {K : Type} [Field K] (sn : K → K)
    (out : ℤ → K) (bs : ℤ) (a b : K) (t : ℤ) (hbs : 0 < bs)
    (ht : t < 0 ∨ LENGTH ≤ t) :
    approxPitchShift sn out bs a b t = out t := by
  unfold approxPitchShift
  rw [approxLoop_spec sn bs hbs a b (LENGTH - 0).toNat 0 out t le_rfl]
  rw [if_neg (by omega)]

/-- The start phase `segW0` is the quadratic chirp phase `a*t0^2 + b*t0`. -/
theorem segW0_eq {K : Type} [Field K] (t0 : ℤ) (a b : K) :
    segW0 t0 a b = a * (t0 : K) ^ 2 + b * (t0 : K) := by
  unfold segW0; ring

/-- At its left endpoint a segment's interpolant starts exactly at
`sin(w0)`: both weights collapse and both phase arguments reduce to `w0`. -/
theorem segInterp_left_endpoint {K : Type} [LinearOrderedField K] (sn : K → K)
    (t0 t1 : ℤ) (a b : K) (h : t0 < t1) :
    segInterp sn t0 t1 a b t0 = sn (segW0 t0 a b) := by
  unfold segInterp
  have hne : (t1 : K) - (t0 : K) ≠ 0 :=
    sub_ne_zero_of_ne (by exact_mod_cast h.ne')
  rw [sub_self, mul_zero, mul_zero, add_zero, div_self hne, one_mul,
    zero_div, zero_mul, add_zero]

/-- With `blockSize = 1` every written sample is the exact value
`sin(segW0 t a b)` of the analytic chirp at `t`. -/
theorem approxPitchShift_blockOne {K : Type} [LinearOrderedField K] (sn : K → K)
    (out : ℤ → K) (a b : K) (t : ℤ) (h0 : 0 ≤ t) (hL : t < LENGTH) :
    approxPitchShift sn out 1 a b t = sn (segW0 t a b) := by
  rw [approxPitchShift_spec sn out 1 a b t one_pos h0 hL]
  have h1 : (1 : ℤ) * (t / 1) = t := by omega
  rw [h1]
  have h2 : min LENGTH (t + 1) = t + 1 := min_eq_right (by omega)
  rw [h2]
  exact segInterp_left_endpoint sn t (t + 1) a b (by omega)

/-- C1: for every segment `[t0, t1)` with `t0 < t1` and every `t` with
`t0 <= t < t1`, `pitchSeg` writes
`out[t] = (t1-t)/(t1-t0) * sin(w0 + freqL*(t-t0))
        + (t-t0)/(t1-t0) * sin(w0 + freqR*(t-t0))`
with `w0 = a*t0^2 + b*t0`, `freqL = 2*a*t0 + b` and
`freqR = (a*t1^2 + b*t1 - w0)/(t1-t0)`. -/
theorem pitchSeg_writes_crossfade (out : ℤ → ℝ) (t0 t1 t : ℤ) (a b : ℝ)
    (_h01 : t0 < t1) (h0t : t0 ≤ t) (ht1 : t < t1) :
    pitchSeg Real.sin out t0 t1 a b t =
      ((t1 : ℝ) - (t : ℝ)) / ((t1 : ℝ) - (t0 : ℝ)) *
        Real.sin ((a * (t0 : ℝ) ^ 2 + b * (t0 : ℝ)) +
          (2 * a * (t0 : ℝ) + b) * ((t : ℝ) - (t0 : ℝ))) +
      ((t : ℝ) - (t0 : ℝ)) / ((t1 : ℝ) - (t0 : ℝ)) *
        Real.sin ((a * (t0 : ℝ) ^ 2 + b * (t0 : ℝ)) +
          ((a * (t1 : ℝ) ^ 2 + b * (t1 : ℝ) - (a * (t0 : ℝ) ^ 2 + b * (t0 : ℝ))) /
            ((t1 : ℝ) - (t0 : ℝ))) * ((t : ℝ) - (t0 : ℝ))) := by
  unfold pitchSeg
  rw [if_pos ⟨h0t, ht1⟩]
  unfold segInterp segFreqR segFreqL segW0
  ring_nf

theorem pitchSeg_writes_crossfade_witness :
    ((0 : ℤ) < 2 ∧ (0 : ℤ) ≤ 1 ∧ (1 : ℤ) < 2) ∧
    pitchSeg Real.sin (fun _ => (0 : ℝ)) 0 2 1 0 1 =
      (((2 : ℤ) : ℝ) - ((1 : ℤ) : ℝ)) / (((2 : ℤ) : ℝ) - ((0 : ℤ) : ℝ)) *
        Real.sin ((1 * ((0 : ℤ) : ℝ) ^ 2 + 0 * ((0 : ℤ) : ℝ)) +
          (2 * 1 * ((0 : ℤ) : ℝ) + 0) * (((1 : ℤ) : ℝ) - ((0 : ℤ) : ℝ))) +
      (((1 : ℤ) : ℝ) - ((0 : ℤ) : ℝ)) / (((2 : ℤ) : ℝ) - ((0 : ℤ) : ℝ)) *
        Real.sin ((1 * ((0 : ℤ) : ℝ) ^ 2 + 0 * ((0 : ℤ) : ℝ)) +
          ((1 * ((2 : ℤ) : ℝ) ^ 2 + 0 * ((2 : ℤ) : ℝ) -
              (1 * ((0 : ℤ) : ℝ) ^ 2 + 0 * ((0 : ℤ) : ℝ))) /
            (((2 : ℤ) : ℝ) - ((0 : ℤ) : ℝ))) * (((1 : ℤ) : ℝ) - ((0 : ℤ) : ℝ))) :=
  ⟨⟨by norm_num, by norm_num, by norm_num⟩,
   pitchSeg_writes_crossfade (fun _ => 0) 0 2 1 1 0
     (by norm_num) (by norm_num) (by norm_num)⟩

/-- C2: at every internal segment boundary `t1` the crossfaded waveform has
no jump: the right-endpoint limit `sin(w0 + freqR*(t1-t0))` of the earlier
segment equals the value `sin(a*t1^2 + b*t1)` with which the next segment
`[t1, t2)` starts (its own `w0`). -/
theorem segBoundary_sin_continuous (t0 t1 t2 : ℤ) (a b : ℝ)
    (h01 : t0 < t1) (h12 : t1 < t2) :
    Real.sin (segW0 t0 a b + segFreqR t0 t1 a b * ((t1 : ℝ) - (t0 : ℝ))) =
      segInterp Real.sin t1 t2 a b t1 ∧
    segInterp Real.sin t1 t2 a b t1 = Real.sin (a * (t1 : ℝ) ^ 2 + b * (t1 : ℝ)) := by
  have hne : (t1 : ℝ) - (t0 : ℝ) ≠ 0 :=
    sub_ne_zero_of_ne (by exact_mod_cast h01.ne')
  have hphase : segW0 t0 a b + segFreqR t0 t1 a b * ((t1 : ℝ) - (t0 : ℝ)) =
      segW0 t1 a b := by
    unfold segFreqR
    rw [div_mul_cancel₀ _ hne]
    ring
  have hleft := segInterp_left_endpoint Real.sin t1 t2 a b h12
  exact ⟨by rw [hphase, hleft], by rw [hleft, segW0_eq]⟩

theorem segBoundary_sin_continuous_witness :
    ((0 : ℤ) < 1 ∧ (1 : ℤ) < 2) ∧
    (Real.sin (segW0 0 (1 : ℝ) 1 + segFreqR 0 1 (1 : ℝ) 1 * (((1 : ℤ) : ℝ) - ((0 : ℤ) : ℝ))) =
       segInterp Real.sin 1 2 (1 : ℝ) 1 1 ∧
     segInterp Real.sin 1 2 (1 : ℝ) 1 1 = Real.sin (1 * ((1 : ℤ) : ℝ) ^ 2 + 1 * ((1 : ℤ) : ℝ))) :=
  ⟨⟨by norm_num, by norm_num⟩,
   segBoundary_sin_continuous 0 1 2 1 1 (by norm_num) (by norm_num)⟩

/-- C3: with one-sample segments the approximation is exact: for every
`a`, `b` and every `0 <= t < LENGTH`, `approxPitchShift` with
`blockSize = 1` produces `out[t] = sin(a*t^2 + b*t)`. -/
theorem approxPitchShift_blockOne_exact (out0 : ℤ → ℝ) (a b : ℝ) (t : ℤ)
    (h0 : 0 ≤ t) (hL : t < LENGTH) :
    approxPitchShift Real.sin out0 1 a b t =
      Real.sin (a * (t : ℝ) ^ 2 + b * (t : ℝ)) := by
  rw [approxPitchShift_blockOne Real.sin out0 a b t h0 hL, segW0_eq]

theorem approxPitchShift_blockOne_exact_witness :
    ((0 : ℤ) ≤ 5 ∧ (5 : ℤ) < LENGTH) ∧
    approxPitchShift Real.sin (fun _ => (0 : ℝ)) 1 1 1 5 =
      Real.sin (1 * ((5 : ℤ) : ℝ) ^ 2 + 1 * ((5 : ℤ) : ℝ)) :=
  ⟨⟨by norm_num, by norm_num [LENGTH, SAMPLE_RATE]⟩,
   approxPitchShift_blockOne_exact (fun _ => 0) 1 1 5 (by norm_num)
     (by norm_num [LENGTH, SAMPLE_RATE])⟩

/-- C5 counterexample: with `a = 0`, `b = 1` and segment `[0, 2)` (the first
segment produced by `blockSize = 2`), the interpolant phase at the segment's
last sample `t1 - 1 = 1` — whether taken along the right-endpoint-matched
trajectory (`w0 + freqR*(t-t0)`) or the left-derivative-matched one
(`w0 + freqL*(t-t0)`) — is `1`, while the next segment `[2, 4)` starts at
phase `w0' = a*2^2 + b*2 = 2`; the claimed equality at sample `t1 - 1`
fails. -/
theorem segPhase_jump_at_last_sample :
    segW0 0 (0 : ℝ) 1 + segFreqR 0 2 (0 : ℝ) 1 * (((1 : ℤ) : ℝ) - ((0 : ℤ) : ℝ)) ≠
      segW0 2 (0 : ℝ) 1 ∧
    segW0 0 (0 : ℝ) 1 + segFreqL 0 (0 : ℝ) 1 * (((1 : ℤ) : ℝ) - ((0 : ℤ) : ℝ)) ≠
      segW0 2 (0 : ℝ) 1 := by
  simp only [segFreqR, segFreqL, segW0]
  norm_num

/-- C5 (amended): cross-block phase continuity holds one sample later: for
consecutive segments `[t0, t1)` and `[t1, t2)`, the phase trajectory of the
earlier segment evaluated at `t1` — i.e. at sample index 0 of the next
block, one past its own last written sample `t1 - 1` — equals the phase
`w0 = a*t1^2 + b*t1` at which the next segment begins. -/
theorem segPhase_continuous_at_right_endpoint (t0 t1 : ℤ) (a b : ℝ)
    (h : t0 < t1) :
    segW0 t0 a b + segFreqR t0 t1 a b * ((t1 : ℝ) - (t0 : ℝ)) = segW0 t1 a b := by
  have hne : (t1 : ℝ) - (t0 : ℝ) ≠ 0 :=
    sub_ne_zero_of_ne (by exact_mod_cast h.ne')
  unfold segFreqR
  rw [div_mul_cancel₀ _ hne]
  ring

theorem segPhase_continuous_at_right_endpoint_witness :
    (0 : ℤ) < 2 ∧
    segW0 0 (1 : ℝ) 1 + segFreqR 0 2 (1 : ℝ) 1 * (((2 : ℤ) : ℝ) - ((0 : ℤ) : ℝ)) =
      segW0 2 (1 : ℝ) 1 :=
  ⟨by norm_num, segPhase_continuous_at_right_endpoint 0 2 1 1 (by norm_num)⟩

/-- C6: every sample written by `pitchSeg` is a convex combination of two
sine values and therefore lies in `[-1, 1]`. -/
theorem pitchSeg_sample_bounded (out : ℤ → ℝ) (t0 t1 t : ℤ) (a b : ℝ)
    (h0t : t0 ≤ t) (ht1 : t < t1) :
    -1 ≤ pitchSeg Real.sin out t0 t1 a b t ∧
      pitchSeg Real.sin out t0 t1 a b t ≤ 1 := by
  unfold pitchSeg
  rw [if_pos ⟨h0t, ht1⟩]
  unfold segInterp
  have htT : (t0 : ℝ) ≤ (t : ℝ) := by exact_mod_cast h0t
  have htT1 : (t : ℝ) < (t1 : ℝ) := by exact_mod_cast ht1
  have hd : (0 : ℝ) < (t1 : ℝ) - (t0 : ℝ) := by linarith
  set s1 := Real.sin (segW0 t0 a b + segFreqL t0 a b * ((t : ℝ) - (t0 : ℝ))) with hs1
  set s2 := Real.sin (segW0 t0 a b + segFreqR t0 t1 a b * ((t : ℝ) - (t0 : ℝ))) with hs2
  set wL := ((t1 : ℝ) - (t : ℝ)) / ((t1 : ℝ) - (t0 : ℝ)) with hwL
  set wR := ((t : ℝ) - (t0 : ℝ)) / ((t1 : ℝ) - (t0 : ℝ)) with hwR
  have hwL0 : 0 ≤ wL := div_nonneg (by linarith) hd.le
  have hwR0 : 0 ≤ wR := div_nonneg (by linarith) hd.le
  have hsum : wL + wR = 1 := by
    rw [hwL, hwR, div_add_div_same]
    have harg : (t1 : ℝ) - (t : ℝ) + ((t : ℝ) - (t0 : ℝ)) = (t1 : ℝ) - (t0 : ℝ) := by
      ring
    rw [harg, div_self hd.ne']
  have e1 : wL * s1 ≤ wL * 1 := mul_le_mul_of_nonneg_left (Real.sin_le_one _) hwL0
  have e2 : wL * (-1) ≤ wL * s1 := mul_le_mul_of_nonneg_left (Real.neg_one_le_sin _) hwL0
  have e3 : wR * s2 ≤ wR * 1 := mul_le_mul_of_nonneg_left (Real.sin_le_one _) hwR0
  have e4 : wR * (-1) ≤ wR * s2 := mul_le_mul_of_nonneg_left (Real.neg_one_le_sin _) hwR0
  constructor <;> nlinarith [e1, e2, e3, e4, hsum]

theorem pitchSeg_sample_bounded_witness :
    ((0 : ℤ) ≤ 0 ∧ (0 : ℤ) < 2) ∧
    (-1 ≤ pitchSeg Real.sin (fun _ => (0 : ℝ)) 0 2 1 1 0 ∧
      pitchSeg Real.sin (fun _ => (0 : ℝ)) 0 2 1 1 0 ≤ 1) :=
  ⟨⟨le_refl 0, by norm_num⟩,
   pitchSeg_sample_bounded (fun _ => 0) 0 2 0 1 1 (by norm_num) (by norm_num)⟩

/-- C7: determinism — the samples `approxPitchShift` writes depend only on
`blockSize`, `a` and `b`; in particular they are independent of whatever the
uninitialized output buffer previously held, so two runs with the same
arguments produce identical sample sequences on `[0, LENGTH)`. -/
theorem approxPitchShift_deterministic (out0 out0' : ℤ → ℝ) (bs : ℤ)
    (a b : ℝ) (t : ℤ) (hbs : 1 ≤ bs) (h0 : 0 ≤ t) (hL : t < LENGTH) :
    approxPitchShift Real.sin out0 bs a b t =
      approxPitchShift Real.sin out0' bs a b t := by
  rw [approxPitchShift_spec Real.sin out0 bs a b t (by omega) h0 hL,
    approxPitchShift_spec Real.sin out0' bs a b t (by omega) h0 hL]

theorem approxPitchShift_deterministic_witness :
    ((1 : ℤ) ≤ 2 ∧ (0 : ℤ) ≤ 3 ∧ (3 : ℤ) < LENGTH) ∧
    approxPitchShift Real.sin (fun _ => (0 : ℝ)) 2 1 1 3 =
      approxPitchShift Real.sin (fun _ => (1 : ℝ)) 2 1 1 3 :=
  ⟨⟨by norm_num, by norm_num, by norm_num [LENGTH, SAMPLE_RATE]⟩,
   approxPitchShift_deterministic (fun _ => 0) (fun _ => 1) 2 1 1 3
     (by norm_num) (by norm_num) (by norm_num [LENGTH, SAMPLE_RATE])⟩

/-- C8 counterexample: called with the zero-length segment `t0 = t1 = 0`,
`pitchSeg` does not reject or surface any error: it evaluates its body
(including `freqR = (w1-w0)/(t1-t0)` with `t1-t0 = 0`, which in the code is
an unguarded division by zero) and returns with the buffer untouched, i.e.
it silently proceeds as a no-op. -/
theorem pitchSeg_zero_length_no_rejection :
    pitchSeg Real.sin (fun _ => (0 : ℝ)) 0 0 1 1 = (fun _ => (0 : ℝ)) := by
  funext t
  unfold pitchSeg
  rw [if_neg (by omega)]

/-- C8 (amended): `pitchSeg` performs no precondition check: on a
zero-length segment (`t1 = t0`) its loop body never runs and the buffer is
returned unchanged (the division `(w1-w0)/(t1-t0)` is still evaluated, with
zero denominator); the caller `approxPitchShift` with `blockSize >= 1` never
produces such a segment, since every segment `[i, min LENGTH (i+blockSize))`
it generates with `0 <= i < LENGTH` is nonempty. -/
theorem pitchSeg_zero_length_noop (out : ℤ → ℝ) (t0 : ℤ) (a b : ℝ)
    (bs i : ℤ) (hbs : 1 ≤ bs) (_h0 : 0 ≤ i) (hL : i < LENGTH) :
    pitchSeg Real.sin out t0 t0 a b = out ∧ i < min LENGTH (i + bs) := by
  constructor
  · funext t
    unfold pitchSeg
    rw [if_neg (by omega)]
  · exact lt_min hL (by omega)

theorem pitchSeg_zero_length_noop_witness :
    ((1 : ℤ) ≤ 1 ∧ (0 : ℤ) ≤ 0 ∧ (0 : ℤ) < LENGTH) ∧
    (pitchSeg Real.sin (fun _ => (0 : ℝ)) 0 0 1 1 = (fun _ => (0 : ℝ)) ∧
      (0 : ℤ) < min LENGTH (0 + 1)) :=
  ⟨⟨le_refl 1, le_refl 0, by norm_num [LENGTH, SAMPLE_RATE]⟩,
   pitchSeg_zero_length_noop (fun _ => 0) 0 1 1 1 0 (le_refl 1) (le_refl 0)
     (by norm_num [LENGTH, SAMPLE_RATE])⟩

/-- C9 counterexample: the input sample `2` scales to `65534`, whose
integral part is not representable in `int16_t`, so the narrowing store is
undefined behavior (`none`): the value is *not* passed through out of range
as `some 65534` — an `int16_t` cell cannot hold it. -/
theorem convertTo16_overflow_not_passed_through :
    convertTo16 (fun _ => (2 : ℝ)) (fun _ => some 0) 0 = none ∧
    convertTo16 (fun _ => (2 : ℝ)) (fun _ => some 0) 0 ≠ some 65534 := by
  have htr : truncTowardZero ((2 : ℝ) * (2 ^ 15 - 1)) = 65534 := by
    unfold truncTowardZero
    rw [if_pos (by norm_num)]
    norm_num
  have h : convertTo16 (fun _ => (2 : ℝ)) (fun _ => some 0) 0 = none := by
    unfold convertTo16
    rw [if_pos ⟨le_refl 0, by rw [LENGTH_eq]; norm_num⟩]
    show floatToInt16 ((2 : ℝ) * (2 ^ 15 - 1)) = none
    unfold floatToInt16
    rw [htr, if_neg (by norm_num [int16Min, int16Max])]
  refine ⟨h, ?_⟩
  rw [h]
  simp

/-- C9 (amended): `convertTo16` applies the unclamped map
`x ↦ trunc(x * (2^15 - 1))` to every sample in `[0, LENGTH)`: whenever the
truncated scaled value is representable in `int16_t` it is stored exactly,
with no clamping anywhere in range (full-scale `1` maps to exactly
`int16Max = 32767`); when the scaled value falls outside the int16 range
the narrowing store is undefined behavior (`none`) — the value is neither
clipped nor passed through. -/
theorem convertTo16_truncates_unclamped (inp : ℤ → ℝ) (outp : ℤ → Option ℤ)
    (i : ℤ) (h0 : 0 ≤ i) (hL : i < LENGTH) :
    convertTo16 inp outp i = floatToInt16 (inp i * (2 ^ 15 - 1)) ∧
    (int16Min ≤ truncTowardZero (inp i * (2 ^ 15 - 1)) ∧
        truncTowardZero (inp i * (2 ^ 15 - 1)) ≤ int16Max →
      convertTo16 inp outp i = some (truncTowardZero (inp i * (2 ^ 15 - 1)))) ∧
    (inp i = 1 → convertTo16 inp outp i = some 32767) := by
  have h1 : convertTo16 inp outp i = floatToInt16 (inp i * (2 ^ 15 - 1)) := by
    unfold convertTo16
    rw [if_pos ⟨h0, hL⟩]
  refine ⟨h1, fun hr => ?_, fun h2 => ?_⟩
  · rw [h1]
    unfold floatToInt16
    rw [if_pos hr]
  · rw [h1, h2]
    have htr : truncTowardZero ((1 : ℝ) * (2 ^ 15 - 1)) = 32767 := by
      unfold truncTowardZero
      rw [if_pos (by norm_num)]
      norm_num
    unfold floatToInt16
    rw [htr, if_pos (by norm_num [int16Min, int16Max])]

theorem convertTo16_truncates_unclamped_witness :
    ((0 : ℤ) ≤ 0 ∧ (0 : ℤ) < LENGTH) ∧
    (convertTo16 (fun _ => (1 : ℝ)) (fun _ => some 0) 0 =
       floatToInt16 ((1 : ℝ) * (2 ^ 15 - 1)) ∧
     (int16Min ≤ truncTowardZero ((1 : ℝ) * (2 ^ 15 - 1)) ∧
         truncTowardZero ((1 : ℝ) * (2 ^ 15 - 1)) ≤ int16Max →
       convertTo16 (fun _ => (1 : ℝ)) (fun _ => some 0) 0 =
         some (truncTowardZero ((1 : ℝ) * (2 ^ 15 - 1)))) ∧
     ((1 : ℝ) = 1 → convertTo16 (fun _ => (1 : ℝ)) (fun _ => some 0) 0 = some 32767)) :=
  ⟨⟨le_refl 0, by rw [LENGTH_eq]; norm_num⟩,
   convertTo16_truncates_unclamped (fun _ => 1) (fun _ => some 0) 0 (le_refl 0)
     (by rw [LENGTH_eq]; norm_num)⟩

/-- C10: for every `blockSize >= 1` the segments
`[i, min LENGTH (i+blockSize))` generated by `approxPitchShift` partition
`[0, LENGTH)`: indices outside `[0, LENGTH)` are never written; every index
`0 <= t < LENGTH` is covered by exactly one generated segment (a multiple of
`blockSize` below `LENGTH`) and holds that segment's interpolant value; and
the final segment is clamped to end exactly at `LENGTH`. -/
theorem approxPitchShift_partition (out0 : ℤ → ℝ) (bs : ℤ) (a b : ℝ)
    (t : ℤ) (hbs : 1 ≤ bs) :
    ((t < 0 ∨ LENGTH ≤ t) → approxPitchShift Real.sin out0 bs a b t = out0 t) ∧
    (0 ≤ t → t < LENGTH →
      (∃! i : ℤ, bs ∣ i ∧ 0 ≤ i ∧ i < LENGTH ∧ i ≤ t ∧ t < min LENGTH (i + bs)) ∧
      approxPitchShift Real.sin out0 bs a b t =
        segInterp Real.sin (bs * (t / bs)) (min LENGTH (bs * (t / bs) + bs)) a b t) ∧
    min LENGTH (bs * ((LENGTH - 1) / bs) + bs) = LENGTH := by
  have hbs0 : 0 < bs := by omega
  have key : ∀ u : ℤ, bs * (u / bs) ≤ u ∧ u < bs * (u / bs) + bs := by
    intro u
    have h1 := Int.ediv_add_emod u bs
    have h2 := Int.emod_nonneg u (by omega : bs ≠ 0)
    have h3 := Int.emod_lt_of_pos u hbs0
    constructor <;> linarith
  refine ⟨fun ht => approxPitchShift_untouched Real.sin out0 bs a b t hbs0 ht,
    fun h0 hL => ⟨⟨bs * (t / bs), ⟨dvd_mul_right bs (t / bs),
      mul_nonneg hbs0.le (Int.ediv_nonneg h0 hbs0.le),
      lt_of_le_of_lt (key t).1 hL, (key t).1, lt_min hL (key t).2⟩, ?_⟩,
      approxPitchShift_spec Real.sin out0 bs a b t hbs0 h0 hL⟩, ?_⟩
  · rintro i' ⟨⟨k, hk⟩, _hi0, _hiL, hit, hmin⟩
    have hib : t < i' + bs := lt_of_lt_of_le hmin (min_le_right _ _)
    subst hk
    have hk1 : k ≤ t / bs := by
      rw [Int.le_ediv_iff_mul_le hbs0]
      linarith
    have hk2 : t / bs < k + 1 := by
      rw [Int.ediv_lt_iff_lt_mul hbs0]
      linarith
    have : k = t / bs := by omega
    rw [this]
  · have := key (LENGTH - 1)
    exact min_eq_left (by linarith [this.1, this.2])

theorem approxPitchShift_partition_witness :
    (1 : ℤ) ≤ 8 ∧
    ((((3 : ℤ) < 0 ∨ LENGTH ≤ 3) →
        approxPitchShift Real.sin (fun _ => (0 : ℝ)) 8 0 0 3 = (0 : ℝ)) ∧
     ((0 : ℤ) ≤ 3 → (3 : ℤ) < LENGTH →
        (∃! i : ℤ, (8 : ℤ) ∣ i ∧ 0 ≤ i ∧ i < LENGTH ∧ i ≤ 3 ∧
          (3 : ℤ) < min LENGTH (i + 8)) ∧
        approxPitchShift Real.sin (fun _ => (0 : ℝ)) 8 0 0 3 =
          segInterp Real.sin (8 * (3 / 8)) (min LENGTH (8 * (3 / 8) + 8)) 0 0 3) ∧
     min LENGTH (8 * ((LENGTH - 1) / 8) + 8) = LENGTH) :=
  ⟨by norm_num, approxPitchShift_partition (fun _ => 0) 8 0 0 3 (by norm_num)⟩

/-- The maximum deviation is a supremum of absolute values, hence
nonnegative. -/
theorem maxDev_nonneg {K : Type} [LinearOrderedField K] (sn : K → K)
    (out0 : ℤ → K) (bs : ℤ) (a b : K) : 0 ≤ maxDev sn out0 bs a b := by
  unfold maxDev
  have hmem : (0 : ℕ) ∈ Finset.range LENGTH.toNat := by
    rw [Finset.mem_range]
    norm_num [LENGTH, SAMPLE_RATE]
  exact le_trans (abs_nonneg _)
    (Finset.le_sup'
      (fun t : ℕ => |approxPitchShift sn out0 bs a b (t : ℤ) - chirp sn a b (t : ℤ)|)
      hmem)

/-- With one-sample segments the output coincides with the exact chirp at
every sample, so the maximum deviation vanishes. -/
theorem maxDev_blockOne {K : Type} [LinearOrderedField K] (sn : K → K)
    (out0 : ℤ → K) (a b : K) : maxDev sn out0 1 a b = 0 := by
  have hLn : LENGTH = 220500 := LENGTH_eq
  refine le_antisymm ?_ (maxDev_nonneg sn out0 1 a b)
  unfold maxDev
  apply Finset.sup'_le
  intro t ht
  rw [Finset.mem_range] at ht
  have htL : (t : ℤ) < LENGTH := by omega
  rw [approxPitchShift_blockOne sn out0 a b (t : ℤ) (by omega) htL, segW0_eq]
  unfold chirp
  simp

/-- C4 (amended): error reduction when refining to one-sample segments: for
a fixed chirp `a`, `b`, if `blockSize' = 1 < blockSize` then the maximum
deviation with `blockSize'` is zero and hence at most the maximum deviation
with `blockSize`; for general `blockSize' < blockSize` the maximum deviation
is not monotone (see the counterexample). -/
theorem maxDev_blockOne_minimal (out0 out0' : ℤ → ℝ) (bs' bs : ℤ) (a b : ℝ)
    (h1 : bs' = 1) (_hlt : bs' < bs) :
    maxDev Real.sin out0 bs' a b = 0 ∧
      maxDev Real.sin out0 bs' a b ≤ maxDev Real.sin out0' bs a b := by
  subst h1
  refine ⟨maxDev_blockOne Real.sin out0 a b, ?_⟩
  rw [maxDev_blockOne Real.sin out0 a b]
  exact maxDev_nonneg Real.sin out0' bs a b

theorem maxDev_blockOne_minimal_witness :
    ((1 : ℤ) = 1 ∧ (1 : ℤ) < 4) ∧
    (maxDev Real.sin (fun _ => (0 : ℝ)) 1 0 0 = 0 ∧
      maxDev Real.sin (fun _ => (0 : ℝ)) 1 0 0 ≤
        maxDev Real.sin (fun _ => (1 : ℝ)) 4 0 0) :=
  ⟨⟨rfl, by norm_num⟩,
   maxDev_blockOne_minimal (fun _ => 0) (fun _ => 1) 1 4 0 0 rfl (by norm_num)⟩

/-- With `a = pi/2`, `b = 0` and `blockSize = 4`, both interpolation phases
of every segment are integer multiples of `pi`, so the synthesized output is
identically zero and the deviation from the true chirp is at most 1
everywhere. -/
theorem maxDev_four_le_one :
    maxDev Real.sin (fun _ => (0 : ℝ)) 4 (Real.pi / 2) 0 ≤ 1 := by
  have hLn : LENGTH = 220500 := LENGTH_eq
  unfold maxDev
  apply Finset.sup'_le
  intro t ht
  rw [Finset.mem_range] at ht
  have h0t : (0 : ℤ) ≤ (t : ℤ) := Int.natCast_nonneg t
  have htL : (t : ℤ) < LENGTH := by omega
  rw [approxPitchShift_spec Real.sin (fun _ => (0 : ℝ)) 4 (Real.pi / 2) 0 (t : ℤ)
    (by norm_num) h0t htL]
  have hmin : min LENGTH (4 * ((t : ℤ) / 4) + 4) = 4 * ((t : ℤ) / 4) + 4 := by
    apply min_eq_right
    omega
  rw [hmin]
  have hzero : segInterp Real.sin (4 * ((t : ℤ) / 4)) (4 * ((t : ℤ) / 4) + 4)
      (Real.pi / 2) 0 (t : ℤ) = 0 := by
    set m : ℤ := (t : ℤ) / 4 with hm
    have hp1 : segW0 (4 * m) (Real.pi / 2) 0 +
        segFreqL (4 * m) (Real.pi / 2) 0 * (((t : ℤ) : ℝ) - ((4 * m : ℤ) : ℝ)) =
        ((8 * m ^ 2 + 4 * m * ((t : ℤ) - 4 * m) : ℤ) : ℝ) * Real.pi := by
      unfold segW0 segFreqL
      push_cast
      ring
    have h4ne : ((4 * m + 4 : ℤ) : ℝ) - ((4 * m : ℤ) : ℝ) ≠ 0 := by
      push_cast
      intro hc
      linarith
    have hfr : segFreqR (4 * m) (4 * m + 4) (Real.pi / 2) 0 =
        ((4 * m + 2 : ℤ) : ℝ) * Real.pi := by
      unfold segFreqR segW0
      rw [div_eq_iff h4ne]
      push_cast
      ring
    have hp2 : segW0 (4 * m) (Real.pi / 2) 0 +
        ((4 * m + 2 : ℤ) : ℝ) * Real.pi * (((t : ℤ) : ℝ) - ((4 * m : ℤ) : ℝ)) =
        ((8 * m ^ 2 + (4 * m + 2) * ((t : ℤ) - 4 * m) : ℤ) : ℝ) * Real.pi := by
      unfold segW0
      push_cast
      ring
    unfold segInterp
    rw [hp1, Real.sin_int_mul_pi, hfr, hp2, Real.sin_int_mul_pi, mul_zero,
      mul_zero, add_zero]
  rw [hzero, zero_sub, abs_neg]
  unfold chirp
  exact Real.abs_sin_le_one _

/-- With `a = pi/2`, `b = 0` and `blockSize = 3`, the sample at `t = 1`
is `-1/3` while the true chirp there is `sin(pi/2) = 1`, so the maximum
deviation is at least `4/3`. -/
theorem maxDev_three_ge_four_thirds :
    (4 / 3 : ℝ) ≤ maxDev Real.sin (fun _ => (0 : ℝ)) 3 (Real.pi / 2) 0 := by
  have happ : approxPitchShift Real.sin (fun _ => (0 : ℝ)) 3 (Real.pi / 2) 0
      ((1 : ℕ) : ℤ) = -(1 / 3) := by
    have hc : ((1 : ℕ) : ℤ) = (1 : ℤ) := Nat.cast_one
    rw [hc]
    rw [approxPitchShift_spec Real.sin (fun _ => (0 : ℝ)) 3 (Real.pi / 2) 0 1
      (by norm_num) (by norm_num) (by rw [LENGTH_eq]; norm_num)]
    have h13 : (3 : ℤ) * (1 / 3) = 0 := by decide
    rw [h13]
    have e0 : (0 : ℤ) + 3 = 3 := by norm_num
    rw [e0]
    have hmin : min LENGTH (3 : ℤ) = 3 := min_eq_right (by rw [LENGTH_eq]; norm_num)
    rw [hmin]
    have e1 : segW0 (0 : ℤ) (Real.pi / 2) 0 +
        segFreqL 0 (Real.pi / 2) 0 * (((1 : ℤ) : ℝ) - ((0 : ℤ) : ℝ)) = 0 := by
      unfold segW0 segFreqL
      push_cast
      ring
    have h3ne : ((3 : ℤ) : ℝ) - ((0 : ℤ) : ℝ) ≠ 0 := by push_cast; norm_num
    have hfr : segFreqR (0 : ℤ) 3 (Real.pi / 2) 0 = 3 * Real.pi / 2 := by
      unfold segFreqR segW0
      rw [div_eq_iff h3ne]
      push_cast
      ring
    have e2 : segW0 (0 : ℤ) (Real.pi / 2) 0 +
        3 * Real.pi / 2 * (((1 : ℤ) : ℝ) - ((0 : ℤ) : ℝ)) = Real.pi + Real.pi / 2 := by
      unfold segW0
      push_cast
      ring
    have hs : Real.sin (Real.pi + Real.pi / 2) = -1 := by
      rw [Real.sin_add, Real.sin_pi, Real.cos_pi, Real.sin_pi_div_two,
        Real.cos_pi_div_two]
      ring
    unfold segInterp
    rw [e1, Real.sin_zero, hfr, e2, hs]
    push_cast
    norm_num
  have hch : chirp Real.sin (Real.pi / 2) 0 ((1 : ℕ) : ℤ) = 1 := by
    unfold chirp
    have harg : Real.pi / 2 * ((((1 : ℕ) : ℤ)) : ℝ) ^ 2 +
        0 * ((((1 : ℕ) : ℤ)) : ℝ) = Real.pi / 2 := by
      push_cast
      ring
    rw [harg, Real.sin_pi_div_two]
  unfold maxDev
  have hmem : (1 : ℕ) ∈ Finset.range LENGTH.toNat := by
    rw [Finset.mem_range]
    norm_num [LENGTH, SAMPLE_RATE]
  refine le_trans ?_
    (Finset.le_sup'
      (fun t : ℕ => |approxPitchShift Real.sin (fun _ => (0 : ℝ)) 3 (Real.pi / 2) 0 (t : ℤ) -
        chirp Real.sin (Real.pi / 2) 0 (t : ℤ)|) hmem)
  show (4 / 3 : ℝ) ≤ |approxPitchShift Real.sin (fun _ => (0 : ℝ)) 3 (Real.pi / 2) 0
    ((1 : ℕ) : ℤ) - chirp Real.sin (Real.pi / 2) 0 ((1 : ℕ) : ℤ)|
  rw [happ, hch]
  have hval : (-(1 / 3) - 1 : ℝ) = -(4 / 3) := by norm_num
  rw [hval, abs_neg, abs_of_nonneg (by norm_num : (0 : ℝ) ≤ 4 / 3)]

/-- C4 counterexample: for the fixed chirp `a = pi/2`, `b = 0`, refining the
segment count from `blockSize = 4` to `blockSize' = 3` strictly *increases*
the maximum deviation (from at most 1 to at least 4/3), so the claimed
monotone error reduction fails. -/
theorem maxDev_not_monotone_counterexample :
    (3 : ℤ) < 4 ∧
    ¬ (maxDev Real.sin (fun _ => (0 : ℝ)) 3 (Real.pi / 2) 0 ≤
        maxDev Real.sin (fun _ => (0 : ℝ)) 4 (Real.pi / 2) 0) := by
  refine ⟨by norm_num, fun hle => ?_⟩
  have h1 := maxDev_four_le_one
  have h2 := maxDev_three_ge_four_thirds
  linarith
